import Mathlib

/-!
# Verification of the hashbench measurement harness

Shallow embedding of `src/hashbench.cpp`: the self-calibrating timing loop,
the trial scheduler, the eight workload generators, the output emitters and
the memory profiler, together with theorems about them.

Machine integers are modelled as `Nat` with explicit reduction `% 2 ^ 64`
where overflow matters; `double` timing arithmetic is modelled over `ℚ`.
-/

namespace Hashbench

/-- `min_run_seconds` from hashbench.cpp. -/
def min_run_seconds : ℚ := 1 / 10

/-- `max_run_seconds` from hashbench.cpp. -/
def max_run_seconds : ℚ := 1

/-- The two memory-accounting policies (`ByteSizeOption` in tables.h,
visible in hashbench.cpp as `BytesAllocated` / `BytesWritten`). -/
inductive ByteSizeOption where
  | BytesAllocated
  | BytesWritten
deriving DecidableEq, Repr

/-- Modelled from the spec: the hash-table capability contract of §6
(tables.h is not part of the sources).  A table implementation exposes
`set`, `get` (returning the stored value or the absent sentinel `0`),
`remove` (returning whether an entry existed) and `byte_size`; the
contract laws relate the operations to an abstract partial-map view
`toModel`.  `byte_size` is implementation specific and unconstrained. -/
structure TableImpl (σ : Type) where
  empty : σ
  set : σ → Nat → Nat → σ
  get : σ → Nat → Nat
  remove : σ → Nat → Bool × σ
  byte_size : σ → ByteSizeOption → Nat
  toModel : σ → Nat → Option Nat
  model_empty : ∀ k, toModel empty k = none
  model_set : ∀ s k v k', toModel (set s k v) k' = if k' = k then some v else toModel s k'
  get_eq : ∀ s k, get s k = (toModel s k).getD 0
  remove_fst : ∀ s k, (remove s k).1 = (toModel s k).isSome
  model_remove : ∀ s k k', toModel (remove s k).2 k' = if k' = k then none else toModel s k'

/-- Canonical model table: the state is the partial map itself. -/
def FunTable : TableImpl (Nat → Option Nat) where
  empty := fun _ => none
  set := fun s k v => fun k' => if k' = k then some v else s k'
  get := fun s k => (s k).getD 0
  remove := fun s k => ((s k).isSome, fun k' => if k' = k then none else s k')
  byte_size := fun _ _ => 0
  toModel := fun s => s
  model_empty := fun _ => rfl
  model_set := fun _ _ _ _ => rfl
  get_eq := fun _ _ => rfl
  remove_fst := fun _ _ => rfl
  model_remove := fun _ _ _ => rfl

/-- Canonical model table that also counts its entries: `byte_size`
returns the number of keys currently present. -/
def CountTable : TableImpl ((Nat → Option Nat) × Nat) where
  empty := (fun _ => none, 0)
  set := fun s k v =>
    (fun k' => if k' = k then some v else s.1 k', if (s.1 k).isSome then s.2 else s.2 + 1)
  get := fun s k => (s.1 k).getD 0
  remove := fun s k =>
    ((s.1 k).isSome,
      (fun k' => if k' = k then none else s.1 k', if (s.1 k).isSome then s.2 - 1 else s.2))
  byte_size := fun s _ => s.2
  toModel := fun s => s.1
  model_empty := fun _ => rfl
  model_set := fun _ _ _ _ => rfl
  get_eq := fun _ _ => rfl
  remove_fst := fun _ _ => rfl
  model_remove := fun _ _ _ => rfl

/-! ## Trial scheduler (`run_time_trials`, second loop) -/

/-- The target duration for trial `i` of `trials`:
`min_run_seconds + double(i) / (trials - 1) * (max_run_seconds - min_run_seconds)`. -/
def target_dt (trials i : Nat) : ℚ :=
  min_run_seconds + (i : ℚ) / ((trials : ℚ) - 1) * (max_run_seconds - min_run_seconds)

/-- The problem size measured at trial `i`:
`size_t(ceil(estimated_speed * target_dt))`. -/
def trial_size (estimated_speed : ℚ) (trials i : Nat) : Nat :=
  (⌈estimated_speed * target_dt trials i⌉).toNat

/-- The sequence of problem sizes produced by the trial loop of
`run_time_trials`, one per trial index `0 ≤ i < trials`. -/
def schedule (estimated_speed : ℚ) (trials : Nat) : List Nat :=
  (List.range trials).map (trial_size estimated_speed trials)

/-- Auxiliary: every target duration is at least `min_run_seconds`, hence positive. -/
theorem min_le_target_dt (trials i : Nat) (h : 2 ≤ trials) :
    min_run_seconds ≤ target_dt trials i := by
  have h1 : (0:ℚ) < (trials : ℚ) - 1 := by
    have : (2:ℚ) ≤ (trials : ℚ) := by exact_mod_cast h
    linarith
  have h2 : (0:ℚ) ≤ (i : ℚ) / ((trials : ℚ) - 1) * (max_run_seconds - min_run_seconds) := by
    apply mul_nonneg
    · positivity
    · norm_num [max_run_seconds, min_run_seconds]
  unfold target_dt
  linarith

/-- C3: For every trial count `trials ≥ 2` and every positive estimated
speed `e`, the scheduler produces exactly `trials` measurement sizes; the
target durations `0.1 + i/(trials-1) * 0.9` are strictly increasing, the
first equal to `0.1` and the last equal to `1.0`; each measured size is
`⌈e * target_i⌉`, and every size is at least `1`. -/
theorem scheduler_spec (e : ℚ) (trials : Nat) (htr : 2 ≤ trials) (he : 0 < e) :
    (schedule e trials).length = trials ∧
    (∀ i j, i < j → j < trials → target_dt trials i < target_dt trials j) ∧
    target_dt trials 0 = min_run_seconds ∧
    target_dt trials (trials - 1) = max_run_seconds ∧
    (∀ i, i < trials → (schedule e trials).get? i = some ((⌈e * target_dt trials i⌉).toNat)) ∧
    (∀ n ∈ schedule e trials, 1 ≤ n) := by
  have h1 : (0:ℚ) < (trials : ℚ) - 1 := by
    have : (2:ℚ) ≤ (trials : ℚ) := by exact_mod_cast htr
    linarith
  refine ⟨by simp [schedule], ?_, ?_, ?_, ?_, ?_⟩
  · intro i j hij hj
    unfold target_dt
    have hlt : (i : ℚ) / ((trials : ℚ) - 1) < (j : ℚ) / ((trials : ℚ) - 1) := by
      apply (div_lt_div_iff_of_pos_right h1).mpr
      exact_mod_cast hij
    have : (0:ℚ) < max_run_seconds - min_run_seconds := by
      norm_num [max_run_seconds, min_run_seconds]
    nlinarith
  · simp [target_dt]
  · have h1t : 1 ≤ trials := le_trans (by norm_num) htr
    have hc : ((trials - 1 : Nat) : ℚ) = (trials : ℚ) - 1 := by
      push_cast [h1t]
      ring
    unfold target_dt
    rw [hc, div_self (ne_of_gt h1)]
    ring
  · intro i hi
    simp [schedule, List.getElem?_map, List.getElem?_range, hi, trial_size]
  · intro n hn
    simp only [schedule, List.mem_map, List.mem_range] at hn
    obtain ⟨i, _, rfl⟩ := hn
    have hpos : 0 < e * target_dt trials i := by
      have := min_le_target_dt trials i htr
      have : (0:ℚ) < target_dt trials i := lt_of_lt_of_le (by norm_num [min_run_seconds]) this
      positivity
    have : (0:ℤ) < ⌈e * target_dt trials i⌉ := Int.ceil_pos.mpr hpos
    unfold trial_size
    omega

/-- Witness for `scheduler_spec` at `e = 1`, `trials = 2`. -/
theorem scheduler_spec_witness :
    (schedule 1 2).length = 2 ∧
    (∀ i j, i < j → j < 2 → target_dt 2 i < target_dt 2 j) ∧
    target_dt 2 0 = min_run_seconds ∧
    target_dt 2 (2 - 1) = max_run_seconds ∧
    (∀ i, i < 2 → (schedule 1 2).get? i = some ((⌈(1:ℚ) * target_dt 2 i⌉).toNat)) ∧
    (∀ n ∈ schedule 1 2, 1 ≤ n) :=
  scheduler_spec 1 2 (by norm_num) (by norm_num)

/-! ## Calibration (`measure_single_run` and the first loop of `run_time_trials`) -/

/-- A workload, as used by `measure_single_run`: a freshly constructed
instance (`init`), an untimed `setup` phase and a timed `run` phase whose
duration is modelled by `runTime` (seconds, as `ℚ`). -/
structure Workload (σ : Type) where
  init : σ
  setup : Nat → σ → σ
  runTime : Nat → σ → ℚ

/-- `measure_single_run<Test>(n)`: construct a fresh workload instance,
run `setup(n)` untimed, and return the measured duration of `run(n)`. -/
def measure_single_run {σ : Type} (W : Workload σ) (n : Nat) : ℚ :=
  W.runTime n (W.setup n W.init)

/-- The calibration loop `for (size_t n = 1; ; n *= 2)` of
`run_time_trials`, with explicit fuel standing in for the unbounded
C++ loop: stop at the first `n` with `dt ≥ min_run_seconds` and return
`n / dt`. -/
def calibrateAux {σ : Type} (W : Workload σ) : Nat → Nat → Option ℚ
  | 0, _ => none
  | fuel + 1, n =>
    let dt := measure_single_run W n
    if min_run_seconds ≤ dt then some ((n : ℚ) / dt) else calibrateAux W fuel (n * 2)

/-- Calibration starts at problem size `n = 1`. -/
def calibrate {σ : Type} (W : Workload σ) (fuel : Nat) : Option ℚ :=
  calibrateAux W fuel 1

/-- Loop lemma for `calibrateAux`: started at `2 ^ s`, if the first `j`
attempts are below the threshold and attempt `j` reaches it, the loop
returns `n / dt` for `n = 2 ^ (s + j)`. -/
theorem calibrateAux_eq {σ : Type} (W : Workload σ) :
    ∀ (j fuel s : Nat), j < fuel →
      (∀ i, i < j → measure_single_run W (2 ^ (s + i)) < min_run_seconds) →
      min_run_seconds ≤ measure_single_run W (2 ^ (s + j)) →
      calibrateAux W fuel (2 ^ s) =
        some ((2 ^ (s + j) : ℚ) / measure_single_run W (2 ^ (s + j))) := by
  intro j
  induction j with
  | zero =>
    intro fuel s hf _ hj
    cases fuel with
    | zero => omega
    | succ f =>
      simp only [calibrateAux, Nat.add_zero] at *
      rw [if_pos hj]
      norm_cast
  | succ j ih =>
    intro fuel s hf hlt hj
    cases fuel with
    | zero => omega
    | succ f =>
      have h0 : measure_single_run W (2 ^ (s + 0)) < min_run_seconds := hlt 0 (Nat.succ_pos j)
      simp only [Nat.add_zero] at h0
      simp only [calibrateAux]
      rw [if_neg (not_le.mpr h0)]
      have hstep : 2 ^ s * 2 = 2 ^ (s + 1) := by ring
      rw [hstep]
      have := ih f (s + 1) (Nat.lt_of_succ_lt_succ hf)
        (fun i hi => by
          have := hlt (i + 1) (Nat.succ_lt_succ hi)
          rwa [show s + (i + 1) = s + 1 + i by ring] at this)
        (by rwa [show s + 1 + j = s + (j + 1) by ring])
      rw [this, show s + 1 + j = s + (j + 1) by ring]

/-- C2: For any workload whose measured duration is non-decreasing in `n`
and reaches `min_run_seconds` within the fuel bound, calibration stops at
the first power of two `2 ^ j` whose measured duration is at least
`min_run_seconds`, having measured every earlier power of two below the
threshold (in particular the previous attempt `2 ^ j / 2`), and returns
`n / dt` for that `n = 2 ^ j`. -/
theorem calibrate_spec {σ : Type} (W : Workload σ) (fuel : Nat)
    (_hmono : Monotone (measure_single_run W))
    (hreach : ∃ k, k < fuel ∧ min_run_seconds ≤ measure_single_run W (2 ^ k)) :
    ∃ j, min_run_seconds ≤ measure_single_run W (2 ^ j) ∧
      (∀ i, i < j → measure_single_run W (2 ^ i) < min_run_seconds) ∧
      calibrate W fuel = some ((2 ^ j : ℚ) / measure_single_run W (2 ^ j)) ∧
      (0 < j → measure_single_run W (2 ^ j / 2) < min_run_seconds) := by
  classical
  obtain ⟨k, hk, hkge⟩ := hreach
  have hex : ∃ j, min_run_seconds ≤ measure_single_run W (2 ^ j) := ⟨k, hkge⟩
  set j := Nat.find hex with hjdef
  have hjge : min_run_seconds ≤ measure_single_run W (2 ^ j) := Nat.find_spec hex
  have hjmin : ∀ i, i < j → measure_single_run W (2 ^ i) < min_run_seconds := by
    intro i hi
    exact lt_of_not_le (Nat.find_min hex hi)
  have hjk : j ≤ k := Nat.find_min' hex hkge
  refine ⟨j, hjge, hjmin, ?_, ?_⟩
  · have := calibrateAux_eq W j fuel 0 (lt_of_le_of_lt hjk hk)
      (fun i hi => by simpa using hjmin i hi) (by simpa using hjge)
    simpa [calibrate] using this
  · intro hj0
    have hdiv : 2 ^ j / 2 = 2 ^ (j - 1) := by
      have hpow : 2 ^ j = 2 ^ (j - 1) * 2 := by
        conv_lhs => rw [show j = (j - 1) + 1 by omega]
        rw [pow_succ]
      rw [hpow]
      omega
    rw [hdiv]
    exact hjmin (j - 1) (Nat.sub_lt hj0 one_pos)

/-- A concrete workload whose measured duration is `n / 40` seconds. -/
def calibDemoWorkload : Workload Unit where
  init := ()
  setup := fun _ _ => ()
  runTime := fun n _ => (n : ℚ) / 40

/-- Witness for `calibrate_spec` at the workload `calibDemoWorkload`
with fuel `5`: the threshold is reached at `n = 4`. -/
theorem calibrate_spec_witness :
    ∃ j, min_run_seconds ≤ measure_single_run calibDemoWorkload (2 ^ j) ∧
      (∀ i, i < j → measure_single_run calibDemoWorkload (2 ^ i) < min_run_seconds) ∧
      calibrate calibDemoWorkload 5 =
        some ((2 ^ j : ℚ) / measure_single_run calibDemoWorkload (2 ^ j)) ∧
      (0 < j → measure_single_run calibDemoWorkload (2 ^ j / 2) < min_run_seconds) :=
  calibrate_spec calibDemoWorkload 5
    (fun a b h => by
      simp only [measure_single_run, calibDemoWorkload]
      have : (a : ℚ) ≤ (b : ℚ) := by exact_mod_cast h
      linarith)
    ⟨2, by norm_num, by norm_num [measure_single_run, calibDemoWorkload, min_run_seconds]⟩

/-! ## Command-line dispatch (`run_one_speed_test`, `main`) -/

/-- The eight workload-kind names, in the dispatch order of
`run_one_speed_test` (which is also the registration order of
`run_all_speed_tests`). -/
def testNames : List String :=
  ["InsertLargeTest", "InsertSmallTest", "LookupHitTest", "LookupMissTest",
   "WorklistTest", "DeleteTest", "LookupAfterDeleteTest", "InsertAfterDeleteTest"]

/-- The observable process outcome of `main`: exit status and the
sequence of messages written to standard error. -/
structure MainResult where
  exitCode : Nat
  stderrOut : List String
deriving DecidableEq, Repr

/-- What `run_one_speed_test(name)` writes to standard error: nothing
when the name matches one of the eight tests, otherwise the
`"No such test"` message; in either case it simply returns. -/
def run_one_speed_test_stderr (name : String) : List String :=
  if name ∈ testNames then [] else ["No such test: " ++ name]

/-- The observable behaviour of `main(argc, argv)`, with `progName`
standing for `argv[0]` and `args` for `argv[1..]`. -/
def mainModel (progName : String) (args : List String) : MainResult :=
  match args with
  | [a] =>
    if a = "-m" ∨ a = "-w" then ⟨0, []⟩
    else ⟨0, run_one_speed_test_stderr a⟩
  | [] => ⟨0, []⟩
  | _ =>
    ⟨1, ["usage:\n  " ++ progName ++ "\n  " ++ progName ++ " -m\n  " ++ progName ++ " -w\n"]⟩

/-- C1 counterexample: invoked with the single unrecognized argument
`"NoSuchTest"`, the process does write the error message to standard
error, but `run_one_speed_test` merely returns, so `main` falls through
to `return 0`: the exit status is `0`, not non-zero as claimed. -/
theorem main_unknown_name_exits_zero :
    (mainModel "hashbench" ["NoSuchTest"]).exitCode = 0 ∧
    (mainModel "hashbench" ["NoSuchTest"]).stderrOut = ["No such test: NoSuchTest"] := by
  decide

/-- C1 (amended): if the process is invoked with exactly one argument
that is not `-m`, not `-w`, and names none of the eight workload kinds,
it writes an error message to standard error and exits with status
zero. -/
theorem main_unknown_name_spec (progName name : String)
    (h1 : name ∉ testNames) (h2 : name ≠ "-m") (h3 : name ≠ "-w") :
    (mainModel progName [name]).stderrOut = ["No such test: " ++ name] ∧
    (mainModel progName [name]).exitCode = 0 := by
  simp [mainModel, run_one_speed_test_stderr, h1, h2, h3]

/-- Witness for `main_unknown_name_spec` at the argument `"Bogus"`. -/
theorem main_unknown_name_spec_witness :
    (mainModel "hashbench" ["Bogus"]).stderrOut = ["No such test: " ++ "Bogus"] ∧
    (mainModel "hashbench" ["Bogus"]).exitCode = 0 :=
  main_unknown_name_spec "hashbench" "Bogus" (by decide) (by decide) (by decide)

/-! ## The hit/miss key sequence and `LookupMissTest` -/

/-- `M = 8675309 + 1`: jenny's number, a prime, plus 1. -/
def M : Nat := 8675309 + 1

/-- The key sequence of the hit/miss tests: `k = 1`, then `k ← k * 31 % M`. -/
def hitKey : Nat → Nat
  | 0 => 1
  | i + 1 => hitKey i * 31 % M

/-- Closed form of the hit/miss key sequence. -/
theorem hitKey_eq_pow (i : Nat) : hitKey i = 31 ^ i % M := by
  induction i with
  | zero => rfl
  | succ i ih =>
    simp only [hitKey, ih, pow_succ]
    conv_lhs => rw [Nat.mul_mod]
    conv_rhs => rw [Nat.mul_mod]
    simp

namespace LookupMissTest

/-- The `setup` loop of `LookupMissTest` (identical to `LookupHitTest`):
insert `(k, k)`, advance `k ← k * 31 % M`, breaking early when the
sequence cycles back to `1`. -/
def setupLoop {σ : Type} (T : TableImpl σ) : Nat → Nat → σ → σ
  | 0, _, s => s
  | i + 1, k, s =>
    let s' := T.set s k k
    let k' := k * 31 % M
    if k' = 1 then s' else setupLoop T i k' s'

/-- `LookupMissTest::setup(n)` starting from the fresh member table. -/
def setup {σ : Type} (T : TableImpl σ) (n : Nat) : σ :=
  setupLoop T n 1 T.empty

/-- The `run` loop of `LookupMissTest`: probe `k + M` and abort
(`none`) unless the lookup reports absent (`0`). -/
def runLoop {σ : Type} (T : TableImpl σ) : Nat → Nat → σ → Option σ
  | 0, _, s => some s
  | i + 1, k, s =>
    if T.get s (k + M) ≠ 0 then none else runLoop T i (k * 31 % M) s

/-- `LookupMissTest::run(n)` on a table state `s`. -/
def run {σ : Type} (T : TableImpl σ) (n : Nat) (s : σ) : Option σ :=
  runLoop T n 1 s

/-- The setup loop never creates an entry at a key `≥ M` (all inserted
keys stay below `M`). -/
theorem setupLoop_absent_above {σ : Type} (T : TableImpl σ) :
    ∀ (i k : Nat) (s : σ), k < M → (∀ key, M ≤ key → T.toModel s key = none) →
      ∀ key, M ≤ key → T.toModel (setupLoop T i k s) key = none := by
  intro i
  induction i with
  | zero => intro k s _ hs key hkey; exact hs key hkey
  | succ i ih =>
    intro k s hk hs key hkey
    simp only [setupLoop]
    have hset : ∀ key, M ≤ key → T.toModel (T.set s k k) key = none := by
      intro key hkey'
      rw [T.model_set]
      rw [if_neg (by omega)]
      exact hs key hkey'
    by_cases hb : k * 31 % M = 1
    · simp only [hb, if_pos rfl]
      exact hset key hkey
    · rw [if_neg hb]
      exact ih (k * 31 % M) (T.set s k k) (Nat.mod_lt _ (by norm_num [M])) hset key hkey

/-- If every key at or above `M` is absent, the `run` loop of
`LookupMissTest` finds every probe `k + M` absent and completes without
aborting, leaving the table untouched. -/
theorem runLoop_some {σ : Type} (T : TableImpl σ) :
    ∀ (n k : Nat) (s : σ), (∀ key, M ≤ key → T.toModel s key = none) →
      runLoop T n k s = some s := by
  intro n
  induction n with
  | zero => intro k s _; rfl
  | succ n ih =>
    intro k s hs
    simp only [runLoop]
    have hget : T.get s (k + M) = 0 := by
      rw [T.get_eq, hs (k + M) (by omega)]
      rfl
    rw [if_neg (by simp [hget])]
    exact ih _ s hs

end LookupMissTest

/-- C8: in the hit/miss key sequence `k ← k * 31 % M` starting at `1`,
every generated key is below `M`; the keys are pairwise distinct until
the sequence returns to its starting value `1` (a repeat at indices
`i < j` forces a return to `1` at some index `t ≤ j`); and consequently
in `LookupMissTest::run` every probed key `hitKey i + M` is absent from
the table built by `setup`, so every lookup reports absent and the run
never aborts, for every table satisfying the capability contract. -/
theorem hitKey_spec :
    (∀ i, hitKey i < M) ∧
    (∀ i j, i < j → hitKey i = hitKey j → ∃ t, 0 < t ∧ t ≤ j ∧ hitKey t = 1) ∧
    (∀ (σ : Type) (T : TableImpl σ) (m i : Nat),
      T.get (LookupMissTest.setup T m) (hitKey i + M) = 0) ∧
    (∀ (σ : Type) (T : TableImpl σ) (m n : Nat),
      LookupMissTest.run T n (LookupMissTest.setup T m) =
        some (LookupMissTest.setup T m)) := by
  have hMpos : 0 < M := by norm_num [M]
  have habsent : ∀ (σ : Type) (T : TableImpl σ) (m : Nat),
      ∀ key, M ≤ key → T.toModel (LookupMissTest.setup T m) key = none := by
    intro σ T m
    exact LookupMissTest.setupLoop_absent_above T m 1 T.empty (by norm_num [M])
      (fun key _ => T.model_empty key)
  refine ⟨?_, ?_, ?_, ?_⟩
  · intro i
    rw [hitKey_eq_pow]
    exact Nat.mod_lt _ hMpos
  · intro i j hij heq
    rw [hitKey_eq_pow, hitKey_eq_pow] at heq
    have hmodeq : 31 ^ i * 1 ≡ 31 ^ i * 31 ^ (j - i) [MOD M] := by
      have : 31 ^ j = 31 ^ i * 31 ^ (j - i) := by
        rw [← pow_add]
        congr 1
        omega
      simpa [this] using heq
    have hcop : Nat.Coprime (31 ^ i) M := Nat.Coprime.pow_left i (by decide)
    have h1 : (1 : Nat) ≡ 31 ^ (j - i) [MOD M] := hmodeq.cancel_left_of_coprime hcop.symm
    refine ⟨j - i, by omega, by omega, ?_⟩
    rw [hitKey_eq_pow]
    have : (1 : Nat) % M = 31 ^ (j - i) % M := h1
    rw [← this]
    decide
  · intro σ T m i
    rw [T.get_eq, habsent σ T m (hitKey i + M) (by omega)]
    rfl
  · intro σ T m n
    exact LookupMissTest.runLoop_some T n 1 _ (habsent σ T m)

set_option maxRecDepth 4000 in
/-- Witness for `hitKey_spec`: the sequence first returns to `1` at
index `378` (the multiplicative order of `31` modulo `M`), so the pair
`(0, 378)` discharges the distinctness hypothesis concretely. -/
theorem hitKey_spec_witness :
    hitKey 0 < M ∧
    (∃ t, 0 < t ∧ t ≤ 378 ∧ hitKey t = 1) ∧
    FunTable.get (LookupMissTest.setup FunTable 3) (hitKey 2 + M) = 0 ∧
    LookupMissTest.run FunTable 3 (LookupMissTest.setup FunTable 3) =
      some (LookupMissTest.setup FunTable 3) :=
  ⟨hitKey_spec.1 0,
   hitKey_spec.2.1 0 378 (by norm_num) (by decide),
   hitKey_spec.2.2.1 _ FunTable 3 2,
   hitKey_spec.2.2.2 _ FunTable 3 3⟩

/-! ## Operation traces and `InsertAfterDeleteTest` -/

/-- A single table operation, for instrumenting a workload with a
table that records the operation log (§8 of the spec). -/
inductive Op where
  | set (k v : Nat)
  | remove (k : Nat)
deriving DecidableEq, Repr

/-- A contract-satisfying table that also records the sequence of
mutating operations performed on it. -/
def LogTable : TableImpl ((Nat → Option Nat) × List Op) where
  empty := (fun _ => none, [])
  set := fun s k v =>
    (fun k' => if k' = k then some v else s.1 k', s.2 ++ [Op.set k v])
  get := fun s k => (s.1 k).getD 0
  remove := fun s k =>
    ((s.1 k).isSome, (fun k' => if k' = k then none else s.1 k', s.2 ++ [Op.remove k]))
  byte_size := fun _ _ => 0
  toModel := fun s => s.1
  model_empty := fun _ => rfl
  model_set := fun _ _ _ _ => rfl
  get_eq := fun _ _ => rfl
  remove_fst := fun _ _ => rfl
  model_remove := fun _ _ _ => rfl

namespace InsertAfterDeleteTest

/-- `InsertAfterDeleteTest::setup(n)`: insert the sequential keys
`1, 2, …, n` into the fresh member table. -/
def setupLoop {σ : Type} (T : TableImpl σ) : Nat → Nat → σ → σ
  | 0, _, s => s
  | i + 1, k, s => setupLoop T i (k + 1) (T.set s k k)

/-- `InsertAfterDeleteTest::setup(n)` from the fresh member table. -/
def setup {σ : Type} (T : TableImpl σ) (n : Nat) : σ :=
  setupLoop T n 1 T.empty

/-- `InsertAfterDeleteTest::run(n)`: `n` times remove key `1`
(discarding the result) and reinsert `(1, 1)`.  The key cursor is never
advanced, and no result is checked, so the loop cannot abort. -/
def runLoop {σ : Type} (T : TableImpl σ) : Nat → σ → σ
  | 0, s => s
  | i + 1, s => runLoop T i (T.set (T.remove s 1).2 1 1)

/-- `InsertAfterDeleteTest::run(n)` on table state `s`. -/
def run {σ : Type} (T : TableImpl σ) (n : Nat) (s : σ) : σ :=
  runLoop T n s

end InsertAfterDeleteTest

/-- C10: `InsertAfterDeleteTest::run(n)` performs exactly `n`
remove-then-insert pairs, all on the single key `1` (shown by its
operation trace on the logging table), and leaves the entry of every
key other than `1` unchanged on any table satisfying the capability
contract.  It is total — the removal result is discarded, so the run
never aborts. -/
theorem insertAfterDelete_spec :
    (∀ (σ : Type) (T : TableImpl σ) (n : Nat) (s : σ) (k : Nat), k ≠ 1 →
      T.toModel (InsertAfterDeleteTest.run T n s) k = T.toModel s k) ∧
    (∀ (n : Nat) (s : (Nat → Option Nat) × List Op),
      (InsertAfterDeleteTest.run LogTable n s).2 =
        s.2 ++ (List.replicate n [Op.remove 1, Op.set 1 1]).flatten) := by
  constructor
  · intro σ T n
    induction n with
    | zero => intro s k _; rfl
    | succ n ih =>
      intro s k hk
      simp only [InsertAfterDeleteTest.run, InsertAfterDeleteTest.runLoop]
      have := ih (T.set (T.remove s 1).2 1 1) k hk
      simp only [InsertAfterDeleteTest.run] at this
      rw [this, T.model_set, if_neg hk, T.model_remove, if_neg hk]
  · intro n
    induction n with
    | zero => intro s; simp [InsertAfterDeleteTest.run, InsertAfterDeleteTest.runLoop]
    | succ n ih =>
      intro s
      simp only [InsertAfterDeleteTest.run, InsertAfterDeleteTest.runLoop]
      have := ih (LogTable.set (LogTable.remove s 1).2 1 1)
      simp only [InsertAfterDeleteTest.run] at this
      rw [this]
      simp [LogTable, List.replicate_succ]

/-- Witness for `insertAfterDelete_spec`: two remove/insert rounds on
the model table leave key `5` untouched, and the trace is the two
pairs. -/
theorem insertAfterDelete_spec_witness :
    FunTable.toModel (InsertAfterDeleteTest.run FunTable 2 FunTable.empty) 5 =
      FunTable.toModel FunTable.empty 5 ∧
    (InsertAfterDeleteTest.run LogTable 2 LogTable.empty).2 =
      LogTable.empty.2 ++ (List.replicate 2 [Op.remove 1, Op.set 1 1]).flatten :=
  ⟨insertAfterDelete_spec.1 _ FunTable 2 FunTable.empty 5 (by norm_num),
   insertAfterDelete_spec.2 2 LogTable.empty⟩

/-! ## `LookupAfterDeleteTest` -/

namespace LookupAfterDeleteTest

/-- `enum { Size = 50000 }`. -/
def Size : Nat := 50000

/-- First `setup` loop: insert `(i, i)` for `i = 1, …, Size`
(`c` counts the remaining iterations, `i` is the loop counter). -/
def insLoop {σ : Type} (T : TableImpl σ) : Nat → Nat → σ → σ
  | 0, _, s => s
  | c + 1, i, s => insLoop T c (i + 1) (T.set s i i)

/-- Second `setup` loop: remove key `i` when `(i & 0xff) != 0`,
for `i = 1, …, Size` (the result of `remove` is not checked). -/
def remLoop {σ : Type} (T : TableImpl σ) : Nat → Nat → σ → σ
  | 0, _, s => s
  | c + 1, i, s => remLoop T c (i + 1) (if i &&& 255 ≠ 0 then (T.remove s i).2 else s)

/-- `LookupAfterDeleteTest::setup(n)` (the argument is unused by the
source): build the 50,000-entry table, then delete every key that is
not a multiple of 256. -/
def setup {σ : Type} (T : TableImpl σ) (_n : Nat) : σ :=
  remLoop T Size 1 (insLoop T Size 1 T.empty)

/-- `LookupAfterDeleteTest::run(n)`: probe key `i % Size` for
`i = 1, …, n`, aborting (`none`) unless the lookup returns `k` when
`(k & 0xff) == 0` and the absent sentinel `0` otherwise. -/
def runLoop {σ : Type} (T : TableImpl σ) : Nat → Nat → σ → Option σ
  | 0, _, s => some s
  | c + 1, i, s =>
    if T.get s (i % Size) ≠ (if i % Size &&& 255 = 0 then i % Size else 0) then none
    else runLoop T c (i + 1) s

/-- `LookupAfterDeleteTest::run(n)` on table state `s`. -/
def run {σ : Type} (T : TableImpl σ) (n : Nat) (s : σ) : Option σ :=
  runLoop T n 1 s

/-- Effect of the insert loop on the map view. -/
theorem insLoop_model {σ : Type} (T : TableImpl σ) :
    ∀ (c i0 : Nat) (s : σ) (k : Nat),
      T.toModel (insLoop T c i0 s) k =
        if i0 ≤ k ∧ k < i0 + c then some k else T.toModel s k := by
  intro c
  induction c with
  | zero => intro i0 s k; simp only [insLoop]; rw [if_neg (by omega)]
  | succ c ih =>
    intro i0 s k
    simp only [insLoop]
    rw [ih]
    by_cases h1 : i0 + 1 ≤ k ∧ k < i0 + 1 + c
    · rw [if_pos h1, if_pos (by omega)]
    · rw [if_neg h1, T.model_set]
      by_cases h2 : k = i0
      · rw [if_pos h2, if_pos (by omega), h2]
      · rw [if_neg h2, if_neg (by omega)]

/-- Effect of the remove loop on the map view. -/
theorem remLoop_model {σ : Type} (T : TableImpl σ) :
    ∀ (c i0 : Nat) (s : σ) (k : Nat),
      T.toModel (remLoop T c i0 s) k =
        if i0 ≤ k ∧ k < i0 + c ∧ k &&& 255 ≠ 0 then none else T.toModel s k := by
  intro c
  induction c with
  | zero => intro i0 s k; simp only [remLoop]; rw [if_neg (by omega)]
  | succ c ih =>
    intro i0 s k
    simp only [remLoop]
    rw [ih]
    by_cases h1 : i0 + 1 ≤ k ∧ k < i0 + 1 + c ∧ k &&& 255 ≠ 0
    · rw [if_pos h1, if_pos (by omega)]
    · rw [if_neg h1]
      by_cases h2 : i0 &&& 255 ≠ 0
      · rw [if_pos h2, T.model_remove]
        by_cases h3 : k = i0
        · subst h3
          rw [if_pos rfl, if_pos (by omega)]
        · rw [if_neg h3, if_neg (by omega)]
      · rw [if_neg h2]
        by_cases h3 : k = i0
        · subst h3
          rw [if_neg (by omega)]
        · rw [if_neg (by omega)]

/-- `x &&& 255` is `x % 256`. -/
theorem and255_eq_mod (x : Nat) : x &&& 255 = x % 256 := by
  have := Nat.and_pow_two_sub_one_eq_mod x 8
  norm_num at this
  exact this

/-- The map view of the table built by `setup`: exactly the nonzero
multiples of 256 up to `Size` survive, each mapped to itself. -/
theorem setup_model {σ : Type} (T : TableImpl σ) (n k : Nat) :
    T.toModel (setup T n) k =
      if 1 ≤ k ∧ k ≤ Size ∧ k % 256 = 0 then some k else none := by
  unfold setup
  rw [remLoop_model, insLoop_model, and255_eq_mod]
  by_cases h1 : 1 ≤ k ∧ k < 1 + Size ∧ k % 256 ≠ 0
  · rw [if_pos h1, if_neg (by omega)]
  · rw [if_neg h1]
    by_cases h2 : 1 ≤ k ∧ k < 1 + Size
    · rw [if_pos h2, if_pos (by omega)]
    · rw [if_neg h2, if_neg (by omega), T.model_empty]

/-- Every probe of the `run` loop against the table built by `setup`
finds exactly the expected value, so the loop never aborts. -/
theorem runLoop_setup_some {σ : Type} (T : TableImpl σ) (n : Nat) :
    ∀ (c i : Nat), runLoop T c i (setup T n) = some (setup T n) := by
  intro c
  induction c with
  | zero => intro i; rfl
  | succ c ih =>
    intro i
    simp only [runLoop]
    have hk : i % Size < Size := Nat.mod_lt _ (by norm_num [Size])
    have hget : T.get (setup T n) (i % Size) =
        (if i % Size &&& 255 = 0 then i % Size else 0) := by
      rw [T.get_eq, setup_model, and255_eq_mod]
      by_cases h1 : (i % Size) % 256 = 0
      · by_cases h2 : 1 ≤ i % Size
        · rw [if_pos ⟨h2, by omega, h1⟩, if_pos h1]
          rfl
        · rw [if_neg (by omega), if_pos h1]
          simp only [Option.getD_none]
          omega
      · rw [if_neg (by omega), if_neg h1]
        rfl
    rw [hget]
    simp only [ne_eq, not_true_eq_false, if_false]
    exact ih (i + 1)

end LookupAfterDeleteTest

/-- C9 counterexample: at iteration `i = 50000` of `run` (reachable for
any `n ≥ 50000`), the probed key is `50000 % 50000 = 0`, which *is* a
multiple of 256, yet the lookup does not hit: key `0` was never
inserted, so the map view of the table built by `setup` is `none`
there.  (The run still does not abort, because the expected value `0`
coincides with the absent sentinel.) -/
theorem lookupAfterDelete_counterexample :
    (50000 % LookupAfterDeleteTest.Size) % 256 = 0 ∧
    FunTable.toModel (LookupAfterDeleteTest.setup FunTable 50000)
      (50000 % LookupAfterDeleteTest.Size) = none := by
  constructor
  · norm_num [LookupAfterDeleteTest.Size]
  · rw [LookupAfterDeleteTest.setup_model]
    norm_num [LookupAfterDeleteTest.Size]

/-- C9 (amended): against any table satisfying the capability contract,
after `LookupAfterDeleteTest::setup`, the probe of key `i % 50000`
during `run(n)` hits (returning the stored value, which equals the key)
iff that key is a *nonzero* multiple of 256; otherwise — including the
case `i % 50000 = 0` — it reports absent.  For key `0` the expected
value `0` coincides with the absent sentinel, so the run's self-check
passes in every iteration and `run` never aborts. -/
theorem lookupAfterDelete_spec :
    (∀ (σ : Type) (T : TableImpl σ) (n i : Nat), 1 ≤ i → i ≤ n →
      T.toModel (LookupAfterDeleteTest.setup T n) (i % LookupAfterDeleteTest.Size) =
        if (i % LookupAfterDeleteTest.Size) % 256 = 0 ∧ i % LookupAfterDeleteTest.Size ≠ 0
        then some (i % LookupAfterDeleteTest.Size) else none) ∧
    (∀ (σ : Type) (T : TableImpl σ) (n : Nat),
      LookupAfterDeleteTest.run T n (LookupAfterDeleteTest.setup T n) =
        some (LookupAfterDeleteTest.setup T n)) := by
  constructor
  · intro σ T n i _ _
    rw [LookupAfterDeleteTest.setup_model]
    have hk : i % LookupAfterDeleteTest.Size < LookupAfterDeleteTest.Size :=
      Nat.mod_lt _ (by norm_num [LookupAfterDeleteTest.Size])
    by_cases h : (i % LookupAfterDeleteTest.Size) % 256 = 0 ∧ i % LookupAfterDeleteTest.Size ≠ 0
    · rw [if_pos ⟨by omega, by omega, h.1⟩, if_pos h]
    · rw [if_neg (by omega), if_neg h]
  · intro σ T n
    exact LookupAfterDeleteTest.runLoop_setup_some T n n 1

/-- Witness for `lookupAfterDelete_spec` at the model table, `n = i = 1`. -/
theorem lookupAfterDelete_spec_witness :
    (FunTable.toModel (LookupAfterDeleteTest.setup FunTable 1)
        (1 % LookupAfterDeleteTest.Size) =
      if (1 % LookupAfterDeleteTest.Size) % 256 = 0 ∧ 1 % LookupAfterDeleteTest.Size ≠ 0
      then some (1 % LookupAfterDeleteTest.Size) else none) ∧
    LookupAfterDeleteTest.run FunTable 1 (LookupAfterDeleteTest.setup FunTable 1) =
      some (LookupAfterDeleteTest.setup FunTable 1) :=
  ⟨lookupAfterDelete_spec.1 _ FunTable 1 1 (by norm_num) (by norm_num),
   lookupAfterDelete_spec.2 _ FunTable 1⟩

/-! ## `DeleteTest` -/

namespace DeleteTest

/-- The `while (n % 7 == 0 || n % 11 == 0) n++` adjustment performed
identically at the top of `DeleteTest::setup` and `DeleteTest::run`. -/
def adjust (n : Nat) : Nat :=
  if n % 7 = 0 ∨ n % 11 = 0 then adjust (n + 1) else n
termination_by 77 - n % 77
decreasing_by
  rename_i h
  omega

/-- The adjusted size is divisible by neither 7 nor 11, and at least `n`. -/
theorem adjust_spec (n : Nat) :
    adjust n % 7 ≠ 0 ∧ adjust n % 11 ≠ 0 ∧ n ≤ adjust n := by
  rw [adjust]
  split
  · rename_i h
    have ih := adjust_spec (n + 1)
    exact ⟨ih.1, ih.2.1, by omega⟩
  · rename_i h
    push_neg at h
    exact ⟨h.1, h.2, le_refl n⟩
termination_by 77 - n % 77
decreasing_by
  rename_i h
  omega

/-- The key walk shared by setup and run: from cursor `k`, emit key
`k + 1` and step `k ← (k + step) % n`, for `c` iterations. -/
def walk (step n : Nat) : Nat → Nat → List Nat
  | 0, _ => []
  | c + 1, k => (k + 1) :: walk step n c ((k + step) % n)

/-- `DeleteTest::setup`'s insert loop. -/
def setupLoop {σ : Type} (T : TableImpl σ) (n : Nat) : Nat → Nat → σ → σ
  | 0, _, s => s
  | c + 1, k, s => setupLoop T n c ((k + 7) % n) (T.set s (k + 1) 0)

/-- `DeleteTest::setup(n)`: adjust `n`, then insert keys `k + 1`
walking `k ← (k + 7) % n` from `k = 0`, starting from the fresh member
table. -/
def setup {σ : Type} (T : TableImpl σ) (n : Nat) : σ :=
  setupLoop T (adjust n) (adjust n) 0 T.empty

/-- `DeleteTest::run`'s remove loop: abort (`none`) when a removal
reports failure. -/
def runLoop {σ : Type} (T : TableImpl σ) (n : Nat) : Nat → Nat → σ → Option σ
  | 0, _, s => some s
  | c + 1, k, s =>
    let r := T.remove s (k + 1)
    if r.1 then runLoop T n c ((k + 11) % n) r.2 else none

/-- `DeleteTest::run(n)` on table state `s`: the same adjustment of `n`,
then remove keys `k + 1` walking `k ← (k + 11) % n` from `k = 0`. -/
def run {σ : Type} (T : TableImpl σ) (n : Nat) (s : σ) : Option σ :=
  runLoop T (adjust n) (adjust n) 0 s

/-- Insert a list of keys in order, each with value `0`. -/
def insertKeys {σ : Type} (T : TableImpl σ) : List Nat → σ → σ
  | [], s => s
  | key :: L, s => insertKeys T L (T.set s key 0)

/-- Remove a list of keys in order, aborting on the first failure. -/
def removeKeys {σ : Type} (T : TableImpl σ) : List Nat → σ → Option σ
  | [], s => some s
  | key :: L, s =>
    let r := T.remove s key
    if r.1 then removeKeys T L r.2 else none

/-- The setup loop is the insertion of the 7-step walk's keys. -/
theorem setupLoop_eq_insertKeys {σ : Type} (T : TableImpl σ) (n : Nat) :
    ∀ (c k : Nat) (s : σ), setupLoop T n c k s = insertKeys T (walk 7 n c k) s := by
  intro c
  induction c with
  | zero => intro k s; rfl
  | succ c ih => intro k s; simp only [setupLoop, walk, insertKeys, ih]

/-- The run loop is the removal of the 11-step walk's keys. -/
theorem runLoop_eq_removeKeys {σ : Type} (T : TableImpl σ) (n : Nat) :
    ∀ (c k : Nat) (s : σ), runLoop T n c k s = removeKeys T (walk 11 n c k) s := by
  intro c
  induction c with
  | zero => intro k s; rfl
  | succ c ih => intro k s; simp only [runLoop, walk, removeKeys, ih]

/-- Closed form of the walk: the `i`-th key is `(k + step * i) % n + 1`. -/
theorem walk_eq_map (step n : Nat) :
    ∀ (c k : Nat), k < n →
      walk step n c k = (List.range c).map (fun i => (k + step * i) % n + 1) := by
  intro c
  induction c with
  | zero => intro k _; rfl
  | succ c ih =>
    intro k hk
    have hn : 0 < n := by omega
    simp only [walk]
    rw [ih ((k + step) % n) (Nat.mod_lt _ hn), List.range_succ_eq_map,
      List.map_cons, List.map_map]
    congr 1
    · simp [Nat.mod_eq_of_lt hk]
    · congr 1
      funext i
      simp only [Function.comp_apply]
      rw [Nat.mod_add_mod, Nat.succ_eq_add_one]
      congr 2
      ring

/-- When `step` is coprime to `n`, the walk of length `n` started at
`0` visits every residue exactly once: its keys are exactly `1..n`,
without duplicates. -/
theorem walk_perm (step n : Nat) (hn : 0 < n) (hcop : Nat.Coprime step n) :
    (walk step n n 0).Nodup ∧ List.Perm (walk step n n 0) ((List.range n).map (· + 1)) := by
  have hwalk : walk step n n 0 = (List.range n).map (fun i => step * i % n + 1) := by
    rw [walk_eq_map step n n 0 hn]
    simp
  have hinj : ∀ i ∈ List.range n, ∀ j ∈ List.range n,
      step * i % n + 1 = step * j % n + 1 → i = j := by
    intro i hi j hj hij
    simp only [List.mem_range] at hi hj
    have hmod : step * i ≡ step * j [MOD n] := by
      unfold Nat.ModEq
      omega
    have hij2 : i ≡ j [MOD n] := Nat.ModEq.cancel_left_of_coprime hcop.symm hmod
    have : i % n = j % n := hij2
    rwa [Nat.mod_eq_of_lt hi, Nat.mod_eq_of_lt hj] at this
  have hnodup : (walk step n n 0).Nodup := by
    rw [hwalk]
    exact (List.nodup_range n).map_on hinj
  have hnodup2 : ((List.range n).map (· + 1)).Nodup :=
    (List.nodup_range n).map_on (by intro x _ y _ h; omega)
  refine ⟨hnodup, ?_⟩
  rw [hwalk] at hnodup ⊢
  apply (List.perm_ext_iff_of_nodup hnodup hnodup2).mpr
  intro a
  simp only [List.mem_map, List.mem_range]
  constructor
  · rintro ⟨i, hi, rfl⟩
    exact ⟨step * i % n, Nat.mod_lt _ hn, rfl⟩
  · rintro ⟨j, hj, rfl⟩
    by_cases h1 : n = 1
    · subst h1
      exact ⟨0, by norm_num, by omega⟩
    · obtain ⟨b, hb⟩ := Nat.exists_mul_emod_eq_one_of_coprime hcop (by omega)
      refine ⟨b * j % n, Nat.mod_lt _ hn, ?_⟩
      have key : step * (b * j % n) % n = j := by
        rw [Nat.mul_mod, Nat.mod_mod, ← Nat.mul_mod, ← Nat.mul_assoc,
          ← Nat.mod_mul_mod, hb, Nat.one_mul, Nat.mod_eq_of_lt hj]
      rw [key]

/-- Effect of `insertKeys` on the map view: exactly the listed keys are
present, each with value `0`. -/
theorem insertKeys_model {σ : Type} (T : TableImpl σ) :
    ∀ (L : List Nat) (s : σ) (k : Nat),
      T.toModel (insertKeys T L s) k = if k ∈ L then some 0 else T.toModel s k := by
  intro L
  induction L with
  | nil => intro s k; simp [insertKeys]
  | cons key L ih =>
    intro s k
    simp only [insertKeys]
    rw [ih, T.model_set]
    by_cases h1 : k ∈ L
    · rw [if_pos h1, if_pos (List.mem_cons_of_mem _ h1)]
    · rw [if_neg h1]
      by_cases h2 : k = key
      · rw [if_pos h2, if_pos (by simp [h2])]
      · rw [if_neg h2, if_neg (by simp [h1, h2])]

/-- Removing a duplicate-free list of keys that are all present
succeeds, and removes exactly those keys. -/
theorem removeKeys_spec {σ : Type} (T : TableImpl σ) :
    ∀ (L : List Nat) (s : σ), L.Nodup →
      (∀ key ∈ L, (T.toModel s key).isSome = true) →
      ∃ s', removeKeys T L s = some s' ∧
        (∀ k, T.toModel s' k = if k ∈ L then none else T.toModel s k) := by
  intro L
  induction L with
  | nil => intro s _ _; exact ⟨s, rfl, by simp⟩
  | cons key L ih =>
    intro s hnd hall
    have hkey : (T.remove s key).1 = true := by
      rw [T.remove_fst]
      exact hall key (by simp)
    have hnd' := List.nodup_cons.mp hnd
    obtain ⟨s', hs', hmodel⟩ := ih (T.remove s key).2 hnd'.2 (by
      intro k hk
      have hne : k ≠ key := fun h => hnd'.1 (h ▸ hk)
      rw [T.model_remove, if_neg hne]
      exact hall k (List.mem_cons_of_mem _ hk))
    refine ⟨s', ?_, ?_⟩
    · simp only [removeKeys, hkey, if_true]
      exact hs'
    · intro k
      rw [hmodel, T.model_remove]
      by_cases h1 : k ∈ L
      · rw [if_pos h1, if_pos (List.mem_cons_of_mem _ h1)]
      · rw [if_neg h1]
        by_cases h2 : k = key
        · rw [if_pos h2, if_pos (by simp [h2])]
        · rw [if_neg h2, if_neg (by simp [h1, h2])]

/-- The operation trace of `insertKeys` on the logging table. -/
theorem insertKeys_log_trace :
    ∀ (L : List Nat) (s : (Nat → Option Nat) × List Op),
      (insertKeys LogTable L s).2 = s.2 ++ L.map (fun k => Op.set k 0) := by
  intro L
  induction L with
  | nil => intro s; simp [insertKeys]
  | cons key L ih =>
    intro s
    simp only [insertKeys, ih, List.map_cons]
    simp [LogTable]

/-- The operation trace of a successful `removeKeys` on the logging
table. -/
theorem removeKeys_log_trace :
    ∀ (L : List Nat) (s s' : (Nat → Option Nat) × List Op),
      removeKeys LogTable L s = some s' → s'.2 = s.2 ++ L.map Op.remove := by
  intro L
  induction L with
  | nil => intro s s' h; cases h; simp [removeKeys]
  | cons key L ih =>
    intro s s' h
    simp only [removeKeys] at h
    by_cases hp : (LogTable.remove s key).1 = true
    · rw [if_pos hp] at h
      have := ih _ _ h
      rw [this]
      simp [LogTable]
    · rw [if_neg hp] at h
      cases h

end DeleteTest

/-- C6: `DeleteTest::setup` and `DeleteTest::run` apply the identical
adjustment `adjust` to `n`, yielding `n' ≥ 1` (and `≥ n`) divisible by
neither 7 nor 11.  `setup` inserts exactly the keys of the 7-step walk
(shown by its trace on the logging table), and that walk — like the
11-step walk removed by `run` — visits every key of `1..n'` exactly
once.  Consequently, against any table satisfying the capability
contract, every removal of `run` succeeds (no abort) and the run ends
with the table empty. -/
theorem deleteTest_spec (n : Nat) :
    (1 ≤ DeleteTest.adjust n ∧ n ≤ DeleteTest.adjust n ∧
      DeleteTest.adjust n % 7 ≠ 0 ∧ DeleteTest.adjust n % 11 ≠ 0) ∧
    (DeleteTest.setup LogTable n).2 =
      (DeleteTest.walk 7 (DeleteTest.adjust n) (DeleteTest.adjust n) 0).map
        (fun k => Op.set k 0) ∧
    (DeleteTest.walk 7 (DeleteTest.adjust n) (DeleteTest.adjust n) 0).Nodup ∧
    List.Perm (DeleteTest.walk 7 (DeleteTest.adjust n) (DeleteTest.adjust n) 0)
      ((List.range (DeleteTest.adjust n)).map (· + 1)) ∧
    (DeleteTest.walk 11 (DeleteTest.adjust n) (DeleteTest.adjust n) 0).Nodup ∧
    List.Perm (DeleteTest.walk 11 (DeleteTest.adjust n) (DeleteTest.adjust n) 0)
      ((List.range (DeleteTest.adjust n)).map (· + 1)) ∧
    (∀ (σ : Type) (T : TableImpl σ), ∃ s',
      DeleteTest.run T n (DeleteTest.setup T n) = some s' ∧
      ∀ k, T.toModel s' k = none) := by
  obtain ⟨h7, h11, hle⟩ := DeleteTest.adjust_spec n
  have hpos : 1 ≤ DeleteTest.adjust n := by
    rcases Nat.eq_zero_or_pos (DeleteTest.adjust n) with h | h
    · exact absurd (by rw [h]) h7
    · exact h
  have hcop7 : Nat.Coprime 7 (DeleteTest.adjust n) :=
    (Nat.Prime.coprime_iff_not_dvd (by norm_num)).mpr
      (fun hdvd => h7 (Nat.mod_eq_zero_of_dvd hdvd))
  have hcop11 : Nat.Coprime 11 (DeleteTest.adjust n) :=
    (Nat.Prime.coprime_iff_not_dvd (by norm_num)).mpr
      (fun hdvd => h11 (Nat.mod_eq_zero_of_dvd hdvd))
  have hperm7 := DeleteTest.walk_perm 7 (DeleteTest.adjust n) hpos hcop7
  have hperm11 := DeleteTest.walk_perm 11 (DeleteTest.adjust n) hpos hcop11
  refine ⟨⟨hpos, hle, h7, h11⟩, ?_, hperm7.1, hperm7.2, hperm11.1, hperm11.2, ?_⟩
  · rw [DeleteTest.setup, DeleteTest.setupLoop_eq_insertKeys,
      DeleteTest.insertKeys_log_trace]
    simp [LogTable]
  · intro σ T
    have hmem : ∀ k,
        (k ∈ DeleteTest.walk 11 (DeleteTest.adjust n) (DeleteTest.adjust n) 0 ↔
         k ∈ DeleteTest.walk 7 (DeleteTest.adjust n) (DeleteTest.adjust n) 0) := by
      intro k
      rw [hperm11.2.mem_iff, hperm7.2.mem_iff]
    have hsetup : ∀ k, T.toModel (DeleteTest.setup T n) k =
        if k ∈ DeleteTest.walk 7 (DeleteTest.adjust n) (DeleteTest.adjust n) 0
        then some 0 else none := by
      intro k
      rw [DeleteTest.setup, DeleteTest.setupLoop_eq_insertKeys,
        DeleteTest.insertKeys_model]
      by_cases h : k ∈ DeleteTest.walk 7 (DeleteTest.adjust n) (DeleteTest.adjust n) 0
      · rw [if_pos h, if_pos h]
      · rw [if_neg h, if_neg h, T.model_empty]
    obtain ⟨s', hs', hmodel⟩ := DeleteTest.removeKeys_spec T
      (DeleteTest.walk 11 (DeleteTest.adjust n) (DeleteTest.adjust n) 0)
      (DeleteTest.setup T n) hperm11.1
      (by
        intro key hkey
        rw [hsetup, if_pos ((hmem key).mp hkey)]
        rfl)
    refine ⟨s', ?_, ?_⟩
    · rw [DeleteTest.run, DeleteTest.runLoop_eq_removeKeys]
      exact hs'
    · intro k
      rw [hmodel k]
      by_cases h : k ∈ DeleteTest.walk 11 (DeleteTest.adjust n) (DeleteTest.adjust n) 0
      · rw [if_pos h]
      · rw [if_neg h, hsetup, if_neg (fun hc => h ((hmem k).mpr hc))]

/-! ## The 64-bit linear congruential key sequence -/

/-- Modelled from the spec: `Key` (declared in tables.h, which is not
among the sources) is an opaque fixed-width unsigned integer, which we
model as 64 bits wide; key arithmetic therefore wraps modulo
`KeyMod = 2 ^ 64`. -/
def KeyMod : Nat := 2 ^ 64

/-- One step of the key recurrence `k ← k * 1103515245 + 12345`,
wrapping at the key width. -/
def lcg (k : Nat) : Nat := (k * 1103515245 + 12345) % KeyMod

/-- The key sequence generated from seed `1` by iterating `lcg`;
`lcgSeq i` is the key written by the `i`-th insertion of
`WorklistTest` (prefill and run combined) and removed by its `i`-th
removal. -/
def lcgSeq : Nat → Nat
  | 0 => 1
  | i + 1 => lcg (lcgSeq i)

/-- `1 + a + a² + … + a^(d-1)` for `a = 1103515245`, via the recursion
`S 0 = 0`, `S (d+1) = 1 + a * S d`. -/
def lcgGeomSum : Nat → Nat
  | 0 => 0
  | d + 1 => 1 + 1103515245 * lcgGeomSum d

/-- `lcgGeomSum` reduced modulo `1024` at every step. -/
def lcgGeomSumMod : Nat → Nat
  | 0 => 0
  | d + 1 => (1 + 1103515245 * lcgGeomSumMod d) % 1024

/-- Single forward pass checking that `lcgGeomSumMod` stays nonzero for
the next `c` indices when started from the value at index `t`. -/
def lcgGeomSumModCheck : Nat → Nat → Bool
  | 0, _ => true
  | c + 1, s =>
    let s' := (1 + 1103515245 * s) % 1024
    (s' != 0) && lcgGeomSumModCheck c s'

theorem lcgGeomSum_mod_1024 (d : Nat) : lcgGeomSum d % 1024 = lcgGeomSumMod d := by
  induction d with
  | zero => rfl
  | succ d ih =>
    simp only [lcgGeomSum, lcgGeomSumMod]
    omega

theorem lcgGeomSumModCheck_spec :
    ∀ (c t : Nat), lcgGeomSumModCheck c (lcgGeomSumMod t) = true →
      ∀ d, t < d → d ≤ t + c → lcgGeomSumMod d ≠ 0 := by
  intro c
  induction c with
  | zero => intro t _ d h1 h2; omega
  | succ c ih =>
    intro t hchk d h1 h2
    simp only [lcgGeomSumModCheck, Bool.and_eq_true, bne_iff_ne, ne_eq] at hchk
    have hnext : (1 + 1103515245 * lcgGeomSumMod t) % 1024 = lcgGeomSumMod (t + 1) := rfl
    rw [hnext] at hchk
    rcases Nat.eq_or_lt_of_le (Nat.succ_le_of_lt h1) with h | h
    · rw [← h]
      exact hchk.1
    · exact ih (t + 1) hchk.2 d h (by omega)

set_option maxRecDepth 8000 in
/-- The geometric sums at indices `1..700` are all nonzero modulo
`1024` (hence not divisible by `2 ^ 64`). -/
theorem lcgGeomSum_mod_ne_zero (d : Nat) (h1 : 1 ≤ d) (h700 : d ≤ 700) :
    lcgGeomSum d % 1024 ≠ 0 := by
  rw [lcgGeomSum_mod_1024]
  have hchk : lcgGeomSumModCheck 700 (lcgGeomSumMod 0) = true := by decide
  exact lcgGeomSumModCheck_spec 700 0 hchk d (by omega) (by omega)

/-- Every key of the sequence is below the key-width bound. -/
theorem lcgSeq_lt (i : Nat) : lcgSeq i < KeyMod := by
  cases i with
  | zero =>
    show 1 < KeyMod
    norm_num [KeyMod]
  | succ i => exact Nat.mod_lt _ (by norm_num [KeyMod])

/-- The `lcg` step, viewed in `ZMod KeyMod`. -/
theorem cast_lcg (k : Nat) :
    ((lcg k : Nat) : ZMod KeyMod) = (k : ZMod KeyMod) * 1103515245 + 12345 := by
  unfold lcg
  rw [ZMod.natCast_mod]
  push_cast
  ring

/-- Closed form of `d` steps of the recurrence, in `ZMod KeyMod`. -/
theorem cast_lcgSeq_add (i : Nat) :
    ∀ d, ((lcgSeq (i + d) : Nat) : ZMod KeyMod) =
      1103515245 ^ d * (lcgSeq i : ZMod KeyMod) + 12345 * (lcgGeomSum d : ZMod KeyMod) := by
  intro d
  induction d with
  | zero => simp [lcgGeomSum]
  | succ d ih =>
    have : i + (d + 1) = (i + d) + 1 := by ring
    rw [this]
    show ((lcg (lcgSeq (i + d)) : Nat) : ZMod KeyMod) = _
    rw [cast_lcg, ih]
    simp only [lcgGeomSum]
    push_cast
    ring

/-- Telescoping: `(a - 1) * S d = a ^ d - 1` in `ZMod KeyMod`. -/
theorem cast_lcgGeomSum_mul (d : Nat) :
    ((1103515245 : ZMod KeyMod) - 1) * (lcgGeomSum d : ZMod KeyMod) =
      1103515245 ^ d - 1 := by
  induction d with
  | zero => simp [lcgGeomSum]
  | succ d ih =>
    simp only [lcgGeomSum]
    push_cast
    push_cast at ih
    rw [pow_succ]
    linear_combination 1103515245 * ih

/-- Window distinctness: two keys of the sequence at distance
`1 ≤ d ≤ 700` are never equal (the source relies on this for the FIFO
window of 700 live keys). -/
theorem lcgSeq_window_ne (i d : Nat) (h1 : 1 ≤ d) (h700 : d ≤ 700) :
    lcgSeq (i + d) ≠ lcgSeq i := by
  intro heq
  have hcast : ((lcgSeq (i + d) : Nat) : ZMod KeyMod) = (lcgSeq i : ZMod KeyMod) := by
    rw [heq]
  rw [cast_lcgSeq_add] at hcast
  set x : ZMod KeyMod := (lcgSeq i : ZMod KeyMod) with hx
  set S : ZMod KeyMod := (lcgGeomSum d : ZMod KeyMod) with hS
  have hgeom := cast_lcgGeomSum_mul d
  rw [← hS] at hgeom
  -- S * ((a - 1) * x + c) = 0
  have hzero : S * (((1103515245 : ZMod KeyMod) - 1) * x + 12345) = 0 := by
    linear_combination x * hgeom + hcast
  -- the second factor is the image of an odd natural number, hence a unit
  have hufact : ((1103515245 : ZMod KeyMod) - 1) * x + 12345 =
      ((1103515244 * lcgSeq i + 12345 : Nat) : ZMod KeyMod) := by
    push_cast
    rw [hx]
    ring
  have hodd : (1103515244 * lcgSeq i + 12345) % 2 = 1 := by omega
  have hcop : Nat.Coprime (1103515244 * lcgSeq i + 12345) KeyMod := by
    have h2 : Nat.Coprime (1103515244 * lcgSeq i + 12345) 2 :=
      Nat.Coprime.symm ((Nat.Prime.coprime_iff_not_dvd (by norm_num)).mpr
        (fun hdvd => by omega))
    show Nat.Coprime _ (2 ^ 64)
    exact Nat.Coprime.pow_right 64 h2
  have hunit : IsUnit (((1103515244 * lcgSeq i + 12345 : Nat) : ZMod KeyMod)) :=
    (ZMod.isUnit_iff_coprime _ _).mpr hcop
  rw [hufact] at hzero
  have hS0 : S = 0 := (IsUnit.mul_left_eq_zero hunit).mp hzero
  have hdvd : KeyMod ∣ lcgGeomSum d := by
    rw [hS] at hS0
    exact (ZMod.natCast_zmod_eq_zero_iff_dvd _ _).mp hS0
  have h1024 : (1024 : Nat) ∣ lcgGeomSum d := dvd_trans (by norm_num [KeyMod]) hdvd
  exact lcgGeomSum_mod_ne_zero d h1 h700 (Nat.mod_eq_zero_of_dvd h1024)

/-! ## `WorklistTest` -/

/-- The state of a `WorklistTest` instance: the owned table plus the
read (`r`) and write (`w`) key cursors. -/
structure WState (σ : Type) where
  table : σ
  r : Nat
  w : Nat

namespace WorklistTest

/-- The prefill loop of `WorklistTest::setup`: insert `(w, w)` and
advance the write cursor, 700 times; returns the table and the final
write cursor. -/
def setupLoop {σ : Type} (T : TableImpl σ) : Nat → Nat → σ → σ × Nat
  | 0, w, s => (s, w)
  | c + 1, w, s => setupLoop T c (lcg w) (T.set s w w)

/-- `WorklistTest::setup` (the size argument is unused): `r = w = 1`,
then 700 prefill insertions advancing `w`. -/
def setup {σ : Type} (T : TableImpl σ) (_n : Nat) : WState σ :=
  ⟨(setupLoop T 700 1 T.empty).1, 1, (setupLoop T 700 1 T.empty).2⟩

/-- `WorklistTest::run`'s loop: insert at the write cursor, then remove
at the read cursor (aborting if the removal fails), `c` times. -/
def runLoop {σ : Type} (T : TableImpl σ) : Nat → WState σ → Option (WState σ)
  | 0, st => some st
  | c + 1, st =>
    let s1 := T.set st.table st.w st.w
    let w' := lcg st.w
    let rres := T.remove s1 st.r
    if rres.1 then runLoop T c ⟨rres.2, lcg st.r, w'⟩ else none

/-- `WorklistTest::run(n)` on state `st`. -/
def run {σ : Type} (T : TableImpl σ) (n : Nat) (st : WState σ) : Option (WState σ) :=
  runLoop T n st

/-- The write cursor after `c` prefill steps started at `lcgSeq i`. -/
theorem setupLoop_w {σ : Type} (T : TableImpl σ) :
    ∀ (c i : Nat) (s : σ), (setupLoop T c (lcgSeq i) s).2 = lcgSeq (i + c) := by
  intro c
  induction c with
  | zero => intro i s; rfl
  | succ c ih =>
    intro i s
    show (setupLoop T c (lcg (lcgSeq i)) (T.set s (lcgSeq i) (lcgSeq i))).2 = _
    have : lcg (lcgSeq i) = lcgSeq (i + 1) := rfl
    rw [this, ih (i + 1)]
    exact congrArg lcgSeq (by omega)

/-- Presence after the prefill loop: a key is present iff it is one of
the keys written, or was present before. -/
theorem setupLoop_model {σ : Type} (T : TableImpl σ) :
    ∀ (c i : Nat) (s : σ) (key : Nat),
      (T.toModel (setupLoop T c (lcgSeq i) s).1 key).isSome = true ↔
        ((∃ j, i ≤ j ∧ j < i + c ∧ key = lcgSeq j) ∨ (T.toModel s key).isSome = true) := by
  intro c
  induction c with
  | zero =>
    intro i s key
    simp only [setupLoop]
    constructor
    · intro h; exact Or.inr h
    · rintro (⟨j, h1, h2, _⟩ | h)
      · omega
      · exact h
  | succ c ih =>
    intro i s key
    show (T.toModel (setupLoop T c (lcg (lcgSeq i)) (T.set s (lcgSeq i) (lcgSeq i))).1 key).isSome = true ↔ _
    have hstep : lcg (lcgSeq i) = lcgSeq (i + 1) := rfl
    rw [hstep, ih (i + 1)]
    rw [T.model_set]
    constructor
    · rintro (⟨j, h1, h2, h3⟩ | h)
      · exact Or.inl ⟨j, by omega, by omega, h3⟩
      · by_cases hk : key = lcgSeq i
        · exact Or.inl ⟨i, by omega, by omega, hk⟩
        · rw [if_neg hk] at h
          exact Or.inr h
    · rintro (⟨j, h1, h2, h3⟩ | h)
      · by_cases hj : j = i
        · subst hj
          refine Or.inr ?_
          rw [if_pos h3]
          rfl
        · exact Or.inl ⟨j, by omega, by omega, h3⟩
      · by_cases hk : key = lcgSeq i
        · refine Or.inr ?_
          rw [if_pos hk]
          rfl
        · refine Or.inr ?_
          rw [if_neg hk]
          exact h

/-- `setup` written with its seed `1` as `lcgSeq 0`. -/
theorem setup_eq {σ : Type} (T : TableImpl σ) (m : Nat) :
    setup T m = ⟨(setupLoop T 700 (lcgSeq 0) T.empty).1, lcgSeq 0,
      (setupLoop T 700 (lcgSeq 0) T.empty).2⟩ := rfl

/-- Cursors and presence after `setup`: `r = lcgSeq 0 = 1`,
`w = lcgSeq 700`, and exactly the first `700` keys of the sequence are
present. -/
theorem setup_spec {σ : Type} (T : TableImpl σ) (m : Nat) :
    (setup T m).r = lcgSeq 0 ∧ (setup T m).w = lcgSeq 700 ∧
    (∀ key, (T.toModel (setup T m).table key).isSome = true ↔
      ∃ j, j < 700 ∧ key = lcgSeq j) := by
  refine ⟨rfl, ?_, ?_⟩
  · rw [setup_eq]
    dsimp only
    rw [setupLoop_w]
  · intro key
    rw [setup_eq]
    dsimp only
    rw [setupLoop_model]
    simp only [T.model_empty, Option.isSome_none, Bool.false_eq_true, or_false]
    constructor
    · rintro ⟨j, _, h2, h3⟩; exact ⟨j, by omega, h3⟩
    · rintro ⟨j, h1, h2⟩; exact ⟨j, by omega, by omega, h2⟩

/-- The run-loop invariant: if the cursors are at positions `i` and
`i + 700` of the key sequence and exactly the window `[i, i + 700)` of
keys is present, then `c` iterations succeed (every removal finds its
key) and re-establish the invariant at position `i + c`. -/
theorem runLoop_invariant {σ : Type} (T : TableImpl σ) :
    ∀ (c i : Nat) (st : WState σ),
      st.r = lcgSeq i → st.w = lcgSeq (i + 700) →
      (∀ key, (T.toModel st.table key).isSome = true ↔
        ∃ j, i ≤ j ∧ j < i + 700 ∧ key = lcgSeq j) →
      ∃ st', runLoop T c st = some st' ∧
        st'.r = lcgSeq (i + c) ∧ st'.w = lcgSeq (i + c + 700) ∧
        (∀ key, (T.toModel st'.table key).isSome = true ↔
          ∃ j, i + c ≤ j ∧ j < i + c + 700 ∧ key = lcgSeq j) := by
  intro c
  induction c with
  | zero =>
    intro i st hr hw hmodel
    exact ⟨st, rfl, hr, hw, hmodel⟩
  | succ c ih =>
    intro i st hr hw hmodel
    simp only [runLoop]
    rw [hr, hw]
    have hpres : (T.toModel (T.set st.table (lcgSeq (i + 700)) (lcgSeq (i + 700)))
        (lcgSeq i)).isSome = true := by
      rw [T.model_set]
      by_cases h : lcgSeq i = lcgSeq (i + 700)
      · rw [if_pos h]
        rfl
      · rw [if_neg h]
        exact (hmodel (lcgSeq i)).mpr ⟨i, le_refl i, by omega, rfl⟩
    have hcond : (T.remove (T.set st.table (lcgSeq (i + 700)) (lcgSeq (i + 700)))
        (lcgSeq i)).1 = true := by
      rw [T.remove_fst]
      exact hpres
    have hmodel2 : ∀ key,
        (T.toModel (T.remove (T.set st.table (lcgSeq (i + 700)) (lcgSeq (i + 700)))
          (lcgSeq i)).2 key).isSome = true ↔
        ∃ j, i + 1 ≤ j ∧ j < i + 1 + 700 ∧ key = lcgSeq j := by
      intro key
      rw [T.model_remove]
      by_cases hk : key = lcgSeq i
      · rw [if_pos hk]
        simp only [Option.isSome_none, Bool.false_eq_true, false_iff]
        rintro ⟨j, h1, h2, h3⟩
        have hne : lcgSeq j ≠ lcgSeq i := by
          have hj : j = i + (j - i) := by omega
          rw [hj]
          exact lcgSeq_window_ne i (j - i) (by omega) (by omega)
        exact hne (by rw [← h3, hk])
      · rw [if_neg hk, T.model_set]
        by_cases hw' : key = lcgSeq (i + 700)
        · rw [if_pos hw']
          simp only [Option.isSome_some, true_iff]
          exact ⟨i + 700, by omega, by omega, hw'⟩
        · rw [if_neg hw', hmodel key]
          constructor
          · rintro ⟨j, h1, h2, h3⟩
            rcases Nat.eq_or_lt_of_le h1 with he | hlt
            · exact absurd (by rw [h3, ← he]) hk
            · exact ⟨j, by omega, by omega, h3⟩
          · rintro ⟨j, h1, h2, h3⟩
            by_cases hj : j = i + 700
            · exact absurd (by rw [h3, hj]) hw'
            · exact ⟨j, by omega, by omega, h3⟩
    obtain ⟨st', hrun, hr', hw2, hm'⟩ := ih (i + 1)
      ⟨(T.remove (T.set st.table (lcgSeq (i + 700)) (lcgSeq (i + 700))) (lcgSeq i)).2,
        lcg (lcgSeq i), lcg (lcgSeq (i + 700))⟩
      rfl
      (show lcg (lcgSeq (i + 700)) = lcgSeq (i + 1 + 700) by
        have h1 : lcgSeq (i + 700 + 1) = lcg (lcgSeq (i + 700)) := rfl
        rw [← h1])
      hmodel2
    have hidx : i + 1 + c = i + (c + 1) := by omega
    rw [hidx] at hr' hw2 hm'
    refine ⟨st', ?_, hr', hw2, hm'⟩
    rw [if_pos hcond]
    exact hrun

/-- The keys inserted by a trace, in order. -/
def insertedKeysOf (L : List Op) : List Nat :=
  L.filterMap (fun op => match op with | Op.set k _ => some k | Op.remove _ => none)

/-- The keys removed by a trace, in order. -/
def removedKeysOf (L : List Op) : List Nat :=
  L.filterMap (fun op => match op with | Op.remove k => some k | Op.set _ _ => none)

theorem insertedKeysOf_append (A B : List Op) :
    insertedKeysOf (A ++ B) = insertedKeysOf A ++ insertedKeysOf B :=
  List.filterMap_append A B _

theorem removedKeysOf_append (A B : List Op) :
    removedKeysOf (A ++ B) = removedKeysOf A ++ removedKeysOf B :=
  List.filterMap_append A B _

/-- The keys of the sequence starting at index `i`, for `c` steps. -/
def keysFrom (i : Nat) : Nat → List Nat
  | 0 => []
  | c + 1 => lcgSeq i :: keysFrom (i + 1) c

/-- `keysFrom` in terms of `List.range`. -/
theorem keysFrom_eq_map : ∀ (c i : Nat),
    keysFrom i c = (List.range c).map (fun t => lcgSeq (i + t)) := by
  intro c
  induction c with
  | zero => intro i; rfl
  | succ c ih =>
    intro i
    show lcgSeq i :: keysFrom (i + 1) c = _
    rw [ih (i + 1), List.range_succ_eq_map, List.map_cons, List.map_map]
    apply List.cons_eq_cons.mpr
    constructor
    · show lcgSeq i = lcgSeq (i + 0)
      rw [Nat.add_zero]
    · have hfun : (fun t => lcgSeq (i + 1 + t)) =
          ((fun t => lcgSeq (i + t)) ∘ Nat.succ) := by
        funext t
        simp only [Function.comp_apply]
        exact congrArg lcgSeq (by omega)
      rw [hfun]

/-- The operation trace of the prefill loop: one `set` per key of the
sequence. -/
theorem setupLoop_log_trace :
    ∀ (c i : Nat) (s : (Nat → Option Nat) × List Op),
      ((setupLoop LogTable c (lcgSeq i) s).1).2 =
        s.2 ++ (keysFrom i c).map (fun k => Op.set k k) := by
  intro c
  induction c with
  | zero => intro i s; simp [setupLoop, keysFrom]
  | succ c ih =>
    intro i s
    show ((setupLoop LogTable c (lcg (lcgSeq i)) (LogTable.set s (lcgSeq i) (lcgSeq i))).1).2 = _
    have hstep : lcg (lcgSeq i) = lcgSeq (i + 1) := rfl
    rw [hstep, ih (i + 1)]
    show (s.2 ++ [Op.set (lcgSeq i) (lcgSeq i)]) ++ _ = _
    rw [List.append_assoc]
    rfl

/-- The operation trace of a successful run loop: per iteration, one
insertion at the write cursor followed by one removal at the read
cursor. -/
theorem runLoop_log_trace :
    ∀ (c i : Nat) (st st' : WState ((Nat → Option Nat) × List Op)),
      st.r = lcgSeq i → st.w = lcgSeq (i + 700) →
      runLoop LogTable c st = some st' →
      insertedKeysOf st'.table.2 =
        insertedKeysOf st.table.2 ++ keysFrom (i + 700) c ∧
      removedKeysOf st'.table.2 =
        removedKeysOf st.table.2 ++ keysFrom i c := by
  intro c
  induction c with
  | zero =>
    intro i st st' _ _ hrun
    cases hrun
    simp [keysFrom]
  | succ c ih =>
    intro i st st' hr hw hrun
    simp only [runLoop] at hrun
    rw [hr, hw] at hrun
    by_cases hp : (LogTable.remove (LogTable.set st.table (lcgSeq (i + 700))
        (lcgSeq (i + 700))) (lcgSeq i)).1 = true
    · rw [if_pos hp] at hrun
      obtain ⟨hins, hrem⟩ := ih (i + 1)
        ⟨(LogTable.remove (LogTable.set st.table (lcgSeq (i + 700)) (lcgSeq (i + 700)))
            (lcgSeq i)).2, lcg (lcgSeq i), lcg (lcgSeq (i + 700))⟩
        st' rfl
        (show lcg (lcgSeq (i + 700)) = lcgSeq (i + 1 + 700) by
          have h1 : lcgSeq (i + 700 + 1) = lcg (lcgSeq (i + 700)) := rfl
          rw [← h1])
        hrun
      have htrace : (LogTable.remove (LogTable.set st.table (lcgSeq (i + 700))
          (lcgSeq (i + 700))) (lcgSeq i)).2.2 =
          st.table.2 ++ [Op.set (lcgSeq (i + 700)) (lcgSeq (i + 700)),
            Op.remove (lcgSeq i)] := by
        show (st.table.2 ++ [Op.set (lcgSeq (i + 700)) (lcgSeq (i + 700))]) ++
            [Op.remove (lcgSeq i)] = _
        rw [List.append_assoc]
        rfl
      rw [htrace, insertedKeysOf_append] at hins
      rw [htrace, removedKeysOf_append] at hrem
      have hidx : i + 1 + 700 = i + 700 + 1 := by omega
      rw [hidx] at hins
      constructor
      · rw [hins]
        have hone : insertedKeysOf [Op.set (lcgSeq (i + 700)) (lcgSeq (i + 700)),
            Op.remove (lcgSeq i)] = [lcgSeq (i + 700)] := rfl
        rw [hone, List.append_assoc]
        rfl
      · rw [hrem]
        have hone : removedKeysOf [Op.set (lcgSeq (i + 700)) (lcgSeq (i + 700)),
            Op.remove (lcgSeq i)] = [lcgSeq i] := rfl
        rw [hone, List.append_assoc]
        rfl
    · rw [if_neg hp] at hrun
      cases hrun

theorem keysFrom_length : ∀ (c i : Nat), (keysFrom i c).length = c := by
  intro c
  induction c with
  | zero => intro i; rfl
  | succ c ih =>
    intro i
    show (lcgSeq i :: keysFrom (i + 1) c).length = c + 1
    rw [List.length_cons, ih (i + 1)]

theorem keysFrom_append : ∀ (a i b : Nat),
    keysFrom i (a + b) = keysFrom i a ++ keysFrom (i + a) b := by
  intro a
  induction a with
  | zero =>
    intro i b
    show keysFrom i (0 + b) = keysFrom (i + 0) b
    rw [Nat.zero_add, Nat.add_zero]
  | succ a ih =>
    intro i b
    have h1 : a + 1 + b = (a + b) + 1 := by omega
    rw [h1]
    show lcgSeq i :: keysFrom (i + 1) (a + b) = _
    rw [ih (i + 1) b]
    show _ = (lcgSeq i :: keysFrom (i + 1) a) ++ keysFrom (i + (a + 1)) b
    rw [List.cons_append]
    have h2 : i + 1 + a = i + (a + 1) := by omega
    rw [h2]

/-- The trace of `setup` on the logging table inserts exactly the first
700 keys of the sequence, in order, and removes nothing. -/
theorem setup_log_trace :
    insertedKeysOf (setup LogTable 0).table.2 = keysFrom 0 700 ∧
    removedKeysOf (setup LogTable 0).table.2 = [] := by
  have h : (setup LogTable 0).table.2 =
      ([] : List Op) ++ (keysFrom 0 700).map (fun k => Op.set k k) := by
    rw [setup_eq]
    dsimp only
    exact setupLoop_log_trace 700 0 LogTable.empty
  rw [h, List.nil_append]
  constructor
  · unfold insertedKeysOf
    rw [List.filterMap_map]
    exact List.filterMap_some _
  · unfold removedKeysOf
    rw [List.filterMap_map]
    show List.filterMap (fun _ => none) _ = []
    simp

end WorklistTest

/-- C7: `WorklistTest` is an exact FIFO.  After `setup`, the read
cursor is at `lcgSeq 0 = 1` (the first prefill key) and the write
cursor at `lcgSeq 700`, exactly 700 insertions ahead; `run(n)` succeeds
(every removal finds its key) against any table satisfying the
capability contract, and after it the cursors are at `lcgSeq n` and
`lcgSeq (n + 700)` — the write cursor stays exactly 700 insertions
ahead at every step, since `n` is arbitrary.  On the logging table, the
keys removed by `run(n)` are exactly the first `n` keys inserted
(prefill first), i.e. the removal sequence is the insertion sequence in
insertion order. -/
theorem worklist_spec (n : Nat) :
    (∀ (σ : Type) (T : TableImpl σ) (m : Nat),
      (WorklistTest.setup T m).r = lcgSeq 0 ∧ (WorklistTest.setup T m).w = lcgSeq 700) ∧
    (∀ (σ : Type) (T : TableImpl σ) (m : Nat), ∃ st',
      WorklistTest.run T n (WorklistTest.setup T m) = some st' ∧
      st'.r = lcgSeq n ∧ st'.w = lcgSeq (n + 700)) ∧
    (∃ st', WorklistTest.run LogTable n (WorklistTest.setup LogTable 0) = some st' ∧
      WorklistTest.insertedKeysOf st'.table.2 = WorklistTest.keysFrom 0 (700 + n) ∧
      WorklistTest.removedKeysOf st'.table.2 = WorklistTest.keysFrom 0 n ∧
      WorklistTest.removedKeysOf st'.table.2 =
        (WorklistTest.insertedKeysOf st'.table.2).take n) := by
  have hrun : ∀ (σ : Type) (T : TableImpl σ) (m : Nat), ∃ st',
      WorklistTest.run T n (WorklistTest.setup T m) = some st' ∧
      st'.r = lcgSeq n ∧ st'.w = lcgSeq (n + 700) := by
    intro σ T m
    obtain ⟨hr, hw, hmodel⟩ := WorklistTest.setup_spec T m
    obtain ⟨st', h1, h2, h3, _⟩ := WorklistTest.runLoop_invariant T n 0
      (WorklistTest.setup T m) hr (by rw [hw])
      (by
        intro key
        rw [hmodel key]
        constructor
        · rintro ⟨j, h1, h2⟩; exact ⟨j, by omega, by omega, h2⟩
        · rintro ⟨j, _, h2, h3⟩; exact ⟨j, by omega, h3⟩)
    refine ⟨st', h1, ?_, ?_⟩
    · rw [h2]; exact congrArg lcgSeq (by omega)
    · rw [h3]; exact congrArg lcgSeq (by omega)
  refine ⟨?_, hrun, ?_⟩
  · intro σ T m
    obtain ⟨hr, hw, _⟩ := WorklistTest.setup_spec T m
    exact ⟨hr, hw⟩
  · obtain ⟨st', h1, h2, h3⟩ := hrun _ LogTable 0
    obtain ⟨hsr, hsw, _⟩ := WorklistTest.setup_spec LogTable 0
    obtain ⟨hins, hrem⟩ := WorklistTest.runLoop_log_trace n 0
      (WorklistTest.setup LogTable 0) st' hsr (by rw [hsw]) h1
    obtain ⟨hsins, hsrem⟩ := WorklistTest.setup_log_trace
    rw [hsins] at hins
    rw [hsrem] at hrem
    have hins' : WorklistTest.insertedKeysOf st'.table.2 =
        WorklistTest.keysFrom 0 (700 + n) := by
      rw [hins, WorklistTest.keysFrom_append 700 0 n]
    have hrem' : WorklistTest.removedKeysOf st'.table.2 = WorklistTest.keysFrom 0 n := by
      rw [hrem, List.nil_append]
    refine ⟨st', h1, hins', hrem', ?_⟩
    rw [hins', hrem']
    have hsplit : 700 + n = n + 700 := by omega
    rw [hsplit, WorklistTest.keysFrom_append n 0 700]
    rw [List.take_left' (WorklistTest.keysFrom_length n 0)]

/-! ## Output emission of `run_speed_test` / `run_all_speed_tests`
(build without `HAVE_SPARSEHASH`; `{`/`}` written `\x7b`/`\x7d`) -/

/-- The text written by `run_speed_test<Test>()`, with the two
`run_time_trials` series outputs abstracted as strings. -/
def run_speed_test_out (openTable closeTable : String) : String :=
  "\x7b\n" ++ "\t\"OpenTable\": " ++ openTable ++ ",\n" ++
    "\t\"CloseTable\": " ++ closeTable ++ "\n" ++ "\x7d"

/-- The text written by `run_all_speed_tests()`, with the eight
sub-reports abstracted: after the `LookupAfterDeleteTest` entry the
source writes the `InsertAfterDeleteTest` key directly, without the
`cout << "," << endl;` used between all other adjacent entries. -/
def run_all_speed_tests_out (sub : Fin 8 → String) : String :=
  "\x7b\n" ++
  "\"InsertLargeTest\": " ++ sub 0 ++ ",\n" ++
  "\"InsertSmallTest\": " ++ sub 1 ++ ",\n" ++
  "\"LookupHitTest\": " ++ sub 2 ++ ",\n" ++
  "\"LookupMissTest\": " ++ sub 3 ++ ",\n" ++
  "\"WorklistTest\": " ++ sub 4 ++ ",\n" ++
  "\"DeleteTest\": " ++ sub 5 ++ ",\n" ++
  "\"LookupAfterDeleteTest\": " ++ sub 6 ++
  "\"InsertAfterDeleteTest\": " ++ sub 7 ++
  "\x7d" ++ "\n"

/-- Modelled from the spec: the claimed well-formed emission, in which
every pair of adjacent workload entries is separated by the mapping's
entry separator (a comma). -/
def run_all_speed_tests_sep (sub : Fin 8 → String) : String :=
  "\x7b\n" ++
  "\"InsertLargeTest\": " ++ sub 0 ++ ",\n" ++
  "\"InsertSmallTest\": " ++ sub 1 ++ ",\n" ++
  "\"LookupHitTest\": " ++ sub 2 ++ ",\n" ++
  "\"LookupMissTest\": " ++ sub 3 ++ ",\n" ++
  "\"WorklistTest\": " ++ sub 4 ++ ",\n" ++
  "\"DeleteTest\": " ++ sub 5 ++ ",\n" ++
  "\"LookupAfterDeleteTest\": " ++ sub 6 ++ ",\n" ++
  "\"InsertAfterDeleteTest\": " ++ sub 7 ++
  "\x7d" ++ "\n"

set_option maxRecDepth 40000 in
/-- C4: with every trial series rendered as the neutral `[]`, the
no-argument output of `run_all_speed_tests` contains only 14 commas —
8 inside the per-test sub-reports and just 6 at the top level for the
7 gaps between the 8 entries — instead of the 15 of the comma-separated
form: the `LookupAfterDeleteTest` and `InsertAfterDeleteTest` entries
are emitted with no separator between them, so the mapping is not
well-formed. -/
theorem run_all_speed_tests_missing_comma :
    (run_all_speed_tests_out (fun _ => run_speed_test_out "[]" "[]")).data.count ',' = 14 ∧
    (run_all_speed_tests_sep (fun _ => run_speed_test_out "[]" "[]")).data.count ',' = 15 ∧
    run_all_speed_tests_out (fun _ => run_speed_test_out "[]" "[]") ≠
      run_all_speed_tests_sep (fun _ => run_speed_test_out "[]" "[]") := by
  decide

/-! ## `measure_space` (memory-profiling mode) -/

/-- One output row of `measure_space` (without `HAVE_SPARSEHASH`):
the step index, the literal `1` placeholder printed in the DenseTable
column, and the two implementations' footprints — the fields of one
tab-separated line. -/
def measure_space_rows {σ1 σ2 : Type} (T1 : TableImpl σ1) (T2 : TableImpl σ2)
    (opt : ByteSizeOption) : Nat → Nat → σ1 → σ2 → List (Nat × Nat × Nat × Nat)
  | 0, _, _, _ => []
  | r + 1, i, s1, s2 =>
    (i, 1, T1.byte_size s1 opt, T2.byte_size s2 opt) ::
      measure_space_rows T1 T2 opt r (i + 1) (T1.set s1 (i + 1) i) (T2.set s2 (i + 1) i)

/-- `measure_space(opt)`: 100000 steps; each iteration first prints the
row, then inserts key `i + 1` (value `i`) into the single persistent
instance of each implementation. -/
def measure_space {σ1 σ2 : Type} (T1 : TableImpl σ1) (T2 : TableImpl σ2)
    (opt : ByteSizeOption) : List (Nat × Nat × Nat × Nat) :=
  measure_space_rows T1 T2 opt 100000 0 T1.empty T2.empty

/-- The table state after the first `j` insertions of `measure_space`
(keys `1..j`, key `i + 1` carrying value `i`). -/
def insertUpTo {σ : Type} (T : TableImpl σ) : Nat → σ
  | 0 => T.empty
  | j + 1 => T.set (insertUpTo T j) (j + 1) j

theorem measure_space_rows_length {σ1 σ2 : Type} (T1 : TableImpl σ1) (T2 : TableImpl σ2)
    (opt : ByteSizeOption) :
    ∀ (r i : Nat) (s1 : σ1) (s2 : σ2),
      (measure_space_rows T1 T2 opt r i s1 s2).length = r := by
  intro r
  induction r with
  | zero => intro i s1 s2; rfl
  | succ r ih =>
    intro i s1 s2
    show (measure_space_rows T1 T2 opt r _ _ _).length + 1 = r + 1
    rw [ih]

theorem measure_space_rows_get {σ1 σ2 : Type} (T1 : TableImpl σ1) (T2 : TableImpl σ2)
    (opt : ByteSizeOption) :
    ∀ (j r i : Nat), j < r →
      (measure_space_rows T1 T2 opt r i (insertUpTo T1 i) (insertUpTo T2 i)).get? j =
        some (i + j, 1, T1.byte_size (insertUpTo T1 (i + j)) opt,
          T2.byte_size (insertUpTo T2 (i + j)) opt) := by
  intro j
  induction j with
  | zero =>
    intro r i hr
    cases r with
    | zero => omega
    | succ r => rfl
  | succ j ih =>
    intro r i hr
    cases r with
    | zero => omega
    | succ r =>
      show (measure_space_rows T1 T2 opt r (i + 1)
        (T1.set (insertUpTo T1 i) (i + 1) i) (T2.set (insertUpTo T2 i) (i + 1) i)).get? j = _
      have h1 : T1.set (insertUpTo T1 i) (i + 1) i = insertUpTo T1 (i + 1) := rfl
      have h2 : T2.set (insertUpTo T2 i) (i + 1) i = insertUpTo T2 (i + 1) := rfl
      rw [h1, h2, ih r (i + 1) (by omega)]
      have hidx : i + 1 + j = i + (j + 1) := by omega
      rw [hidx]

/-- C5 counterexample: on the entry-counting model table, row `0` of
`measure_space` prints footprint `0` — the footprint of the table
*before* that step's insertion — whereas the footprint after step 0's
insertion is `1`. -/
theorem measure_space_counterexample :
    (measure_space CountTable CountTable ByteSizeOption.BytesAllocated).get? 0 =
      some (0, 1, 0, 0) ∧
    CountTable.byte_size (insertUpTo CountTable 1) ByteSizeOption.BytesAllocated = 1 := by
  constructor
  · have := measure_space_rows_get CountTable CountTable ByteSizeOption.BytesAllocated
      0 100000 0 (by norm_num)
    exact this
  · rfl

/-- C5 (amended): `measure_space` performs exactly 100000 steps, one
output row per step led by the step index; step `i` inserts the single
new sequential key `i + 1` into the one persistent instance of each
implementation, but the footprint printed on step `i`'s row is each
implementation's footprint *before* that step's insertion, i.e. after
the `i` insertions of the previous steps (row 0 shows the empty
tables). -/
theorem measure_space_spec {σ1 σ2 : Type} (T1 : TableImpl σ1) (T2 : TableImpl σ2)
    (opt : ByteSizeOption) :
    (measure_space T1 T2 opt).length = 100000 ∧
    (∀ j, j < 100000 → (measure_space T1 T2 opt).get? j =
      some (j, 1, T1.byte_size (insertUpTo T1 j) opt,
        T2.byte_size (insertUpTo T2 j) opt)) := by
  constructor
  · exact measure_space_rows_length T1 T2 opt 100000 0 T1.empty T2.empty
  · intro j hj
    have := measure_space_rows_get T1 T2 opt j 100000 0 hj
    simpa using this

/-- Witness for `measure_space_spec` at the counting table, row 3. -/
theorem measure_space_spec_witness :
    (measure_space CountTable CountTable ByteSizeOption.BytesWritten).length = 100000 ∧
    (measure_space CountTable CountTable ByteSizeOption.BytesWritten).get? 3 =
      some (3, 1, CountTable.byte_size (insertUpTo CountTable 3) ByteSizeOption.BytesWritten,
        CountTable.byte_size (insertUpTo CountTable 3) ByteSizeOption.BytesWritten) :=
  ⟨(measure_space_spec CountTable CountTable ByteSizeOption.BytesWritten).1,
   (measure_space_spec CountTable CountTable ByteSizeOption.BytesWritten).2 3 (by norm_num)⟩

end Hashbench
